import Mathlib

/-!
Shallow embedding of the chess engine in `main.py` (the same move generator,
evaluator and alpha-beta search also appear verbatim in `main_gpu.py`).

Boards are total maps from the 64 squares to characters, mirroring the
8×8 list-of-lists of one-character strings used by the Python code
(a dot character for an empty square, uppercase for White, lowercase for Black).
The Python search bounds float(-inf) and float(inf) are modelled by the
extended integers `WithBot (WithTop ℤ)`: every value the search compares is
either an integer board evaluation or one of the two infinities, and the Python
`<`, `>`, `max`, `min` on those floats agree with the linear order on this type.
-/

abbrev Board := Fin 8 → Fin 8 → Char

abbrev Move := (Fin 8 × Fin 8) × (Fin 8 × Fin 8)

abbrev Score := WithBot (WithTop ℤ)

/-- Integer board evaluations, injected into the extended score type. -/
def intScore (n : ℤ) : Score := ((n : WithTop ℤ) : Score)

/-- The board literal of `initialize_board` in `main.py`, row-major. -/
def initRows : List (List Char) :=
  [['r', 'n', 'b', 'q', 'k', 'b', 'n', 'r'],
   ['p', 'p', 'p', 'p', 'p', 'p', 'p', 'p'],
   ['.', '.', '.', '.', '.', '.', '.', '.'],
   ['.', '.', '.', '.', '.', '.', '.', '.'],
   ['.', '.', '.', '.', '.', '.', '.', '.'],
   ['.', '.', '.', '.', '.', '.', '.', '.'],
   ['P', 'P', 'P', 'P', 'P', 'P', 'P', 'P'],
   ['R', 'N', 'B', 'Q', 'K', 'B', 'N', 'R']]

/-- Function `initialize_board` from `main.py`: the starting position. -/
def initialize_board : Board :=
  fun x y => (((initRows.get? x.val).getD []).get? y.val).getD '.'

/-- Function `is_in_bounds` from `main.py`: `0 <= x < 8 and 0 <= y < 8`. -/
def is_in_bounds (x y : ℤ) : Bool :=
  decide (0 ≤ x ∧ x < 8 ∧ 0 ≤ y ∧ y < 8)

/-- The bounds test of `is_in_bounds`, fused with the conversion of an
in-bounds coordinate pair to a typed square (the Python code indexes
`board[nx][ny]` only after `is_in_bounds(nx, ny)` holds). -/
def toSquare (x y : ℤ) : Option (Fin 8 × Fin 8) :=
  if h : 0 ≤ x ∧ x < 8 ∧ 0 ≤ y ∧ y < 8 then
    some (⟨x.toNat, by omega⟩, ⟨y.toNat, by omega⟩)
  else none

/-- The `directions` dictionary of `get_piece_moves`, looked up by piece
character; characters outside the dictionary get `[]`, matching the
`if piece.upper() in directions` guard. -/
def directions (piece : Char) : List (ℤ × ℤ) :=
  match piece with
  | 'P' => [(-1, 0), (-1, -1), (-1, 1)]
  | 'p' => [(1, 0), (1, -1), (1, 1)]
  | 'R' => [(-1, 0), (1, 0), (0, -1), (0, 1)]
  | 'r' => [(-1, 0), (1, 0), (0, -1), (0, 1)]
  | 'N' => [(-2, -1), (-2, 1), (-1, -2), (-1, 2), (2, -1), (2, 1), (1, -2), (1, 2)]
  | 'n' => [(-2, -1), (-2, 1), (-1, -2), (-1, 2), (2, -1), (2, 1), (1, -2), (1, 2)]
  | 'B' => [(-1, -1), (-1, 1), (1, -1), (1, 1)]
  | 'b' => [(-1, -1), (-1, 1), (1, -1), (1, 1)]
  | 'Q' => [(-1, 0), (1, 0), (0, -1), (0, 1), (-1, -1), (-1, 1), (1, -1), (1, 1)]
  | 'q' => [(-1, 0), (1, 0), (0, -1), (0, 1), (-1, -1), (-1, 1), (1, -1), (1, 1)]
  | 'K' => [(-1, 0), (1, 0), (0, -1), (0, 1), (-1, -1), (-1, 1), (1, -1), (1, 1)]
  | 'k' => [(-1, 0), (1, 0), (0, -1), (0, 1), (-1, -1), (-1, 1), (1, -1), (1, 1)]
  | _ => []

/-- The `while is_in_bounds(nx, ny)` walk of `get_piece_moves` along one
direction `(dx, dy)`.  Each iteration appends the candidate move when the
target square is empty or holds a piece of the other colour, stops after an
occupied square, and stops after one step for `N`/`K`/`P` pieces.  A walk
starting in bounds revisits the board at most 7 more times (each step moves
at least one unit in a nonzero direction), so 8 units of fuel make the
recursion total without cutting any iteration the Python loop performs. -/
def slide (board : Board) (fromSq : Fin 8 × Fin 8) (piece : Char) (dx dy : ℤ) :
    ℤ → ℤ → Nat → List Move
  | _, _, 0 => []
  | nx, ny, fuel + 1 =>
    match toSquare nx ny with
    | none => []
    | some sq =>
      let target := board sq.1 sq.2
      let acc : List Move :=
        if target = '.' ∨ (target.isLower ≠ piece.isLower) then [(fromSq, sq)] else []
      if target ≠ '.' then acc
      else if piece.toUpper ∈ ['N', 'K', 'P'] then acc
      else acc ++ slide board fromSq piece dx dy (nx + dx) (ny + dy) fuel

/-- Function `get_piece_moves` from `main.py`. -/
def get_piece_moves (board : Board) (x y : Fin 8) (piece : Char) : List Move :=
  (directions piece).flatMap fun d =>
    slide board (x, y) piece d.1 d.2 ((x.val : ℤ) + d.1) ((y.val : ℤ) + d.2) 8

/-- Function `generate_moves` from `main.py`: scan the squares in row-major order and
collect the piece moves of the side to move. -/
def generate_moves (board : Board) (is_white : Bool) : List Move :=
  (List.finRange 8).flatMap fun x =>
    (List.finRange 8).flatMap fun y =>
      if (is_white && (board x y).isUpper) || (!is_white && (board x y).isLower) then
        get_piece_moves board x y (board x y)
      else []

/-- The `piece_values` dictionary of `evaluate_board` (`.get(piece, 0)`
semantics: anything outside the dictionary contributes 0). -/
def piece_values (c : Char) : ℤ :=
  match c with
  | 'p' => 1
  | 'n' => 3
  | 'b' => 3
  | 'r' => 5
  | 'q' => 9
  | 'k' => 0
  | 'P' => -1
  | 'N' => -3
  | 'B' => -3
  | 'R' => -5
  | 'Q' => -9
  | 'K' => 0
  | _ => 0

/-- Function `evaluate_board` from `main.py`: sum the piece values over all squares. -/
def evaluate_board (board : Board) : ℤ :=
  (List.finRange 8).foldl
    (fun s x => (List.finRange 8).foldl (fun t y => t + piece_values (board x y)) s) 0

/-- Function `make_move` from `main.py`: `board[x2][y2] = board[x1][y1]` followed by
`board[x1][y1] = '.'`; in particular when the two squares coincide the net
effect of the two assignments is an empty square. -/
def make_move (board : Board) (move : Move) : Board :=
  fun x y =>
    if (x, y) = move.1 then '.'
    else if (x, y) = move.2 then board move.1.1 move.1.2
    else board x y

/-- The `for move in generate_moves(...)` loop of the maximizing branch of
`minimax`, with the recursive evaluation of a child abstracted as `f` (the
current `alpha` is passed to the child exactly as in the source, and `beta`
is fixed for the whole loop).  State: `max_eval`, `best_move`, `alpha`;
the loop breaks when `beta <= alpha` after the update. -/
def white_loop (f : Move → Score → Score) (beta : Score) :
    List Move → Score → Option Move → Score → Score × Option Move
  | [], max_eval, best_move, _ => (max_eval, best_move)
  | move :: rest, max_eval, best_move, alpha =>
    let evaluation := f move alpha
    let max_eval' := if max_eval < evaluation then evaluation else max_eval
    let best_move' := if max_eval < evaluation then some move else best_move
    let alpha' := max alpha evaluation
    if beta ≤ alpha' then (max_eval', best_move')
    else white_loop f beta rest max_eval' best_move' alpha'

/-- The minimizing branch of the `minimax` loop, dual to `white_loop`:
state `min_eval`, `best_move`, `beta`; `alpha` fixed. -/
def black_loop (f : Move → Score → Score) (alpha : Score) :
    List Move → Score → Option Move → Score → Score × Option Move
  | [], min_eval, best_move, _ => (min_eval, best_move)
  | move :: rest, min_eval, best_move, beta =>
    let evaluation := f move beta
    let min_eval' := if evaluation < min_eval then evaluation else min_eval
    let best_move' := if evaluation < min_eval then some move else best_move
    let beta' := min beta evaluation
    if beta' ≤ alpha then (min_eval', best_move')
    else black_loop f alpha rest min_eval' best_move' beta'

/-- Function `minimax` from `main.py` (identical in `main_gpu.py` up to the evaluator
call): alpha-beta search.  Each child is searched on `make_move` applied to a
deep copy of the board, which in this pure embedding is simply the new board
value `make_move board move`. -/
def minimax : Nat → Board → Bool → Score → Score → Score × Option Move
  | 0, board, _, _, _ => (intScore (evaluate_board board), none)
  | depth + 1, board, is_white, alpha, beta =>
    if is_white then
      white_loop (fun move a => (minimax depth (make_move board move) false a beta).1)
        beta (generate_moves board true) ⊥ none alpha
    else
      black_loop (fun move b => (minimax depth (make_move board move) true alpha b).1)
        alpha (generate_moves board false) ⊤ none beta

/-- Un-pruned full minimax over the same game tree (same move generator,
same child construction, same evaluator), the reference the specification
compares the alpha-beta score against: no alpha/beta window, every child
explored, values combined by `max`/`min` from the same `-inf`/`+inf` seeds. -/
def full_minimax : Nat → Board → Bool → Score
  | 0, board, _ => intScore (evaluate_board board)
  | depth + 1, board, true =>
    (generate_moves board true).foldl
      (fun acc move => max acc (full_minimax depth (make_move board move) false)) ⊥
  | depth + 1, board, false =>
    (generate_moves board false).foldl
      (fun acc move => min acc (full_minimax depth (make_move board move) true)) ⊤

/-- Variant of `white_loop` with a child evaluation that may run out of fuel
(used to state termination of the recursion as a theorem). -/
def white_loop_opt (f : Move → Score → Option Score) (beta : Score) :
    List Move → Score → Option Move → Score → Option (Score × Option Move)
  | [], max_eval, best_move, _ => some (max_eval, best_move)
  | move :: rest, max_eval, best_move, alpha =>
    match f move alpha with
    | none => none
    | some evaluation =>
      let max_eval' := if max_eval < evaluation then evaluation else max_eval
      let best_move' := if max_eval < evaluation then some move else best_move
      let alpha' := max alpha evaluation
      if beta ≤ alpha' then some (max_eval', best_move')
      else white_loop_opt f beta rest max_eval' best_move' alpha'

/-- Variant of `black_loop` with a child evaluation that may run out of fuel. -/
def black_loop_opt (f : Move → Score → Option Score) (alpha : Score) :
    List Move → Score → Option Move → Score → Option (Score × Option Move)
  | [], min_eval, best_move, _ => some (min_eval, best_move)
  | move :: rest, min_eval, best_move, beta =>
    match f move beta with
    | none => none
    | some evaluation =>
      let min_eval' := if evaluation < min_eval then evaluation else min_eval
      let best_move' := if evaluation < min_eval then some move else best_move
      let beta' := min beta evaluation
      if beta' ≤ alpha then some (min_eval', best_move')
      else black_loop_opt f alpha rest min_eval' best_move' beta'

/-- Variant of `minimax` instrumented with explicit fuel: one unit of fuel is consumed by
every call, and the computation reports `none` if the call stack would have to
grow deeper than the fuel.  The termination claim is that `depth < fuel`
always suffices, because every recursive call strictly decreases `depth`. -/
def minimax_fuel : Nat → Nat → Board → Bool → Score → Score → Option (Score × Option Move)
  | 0, _, _, _, _, _ => none
  | _ + 1, 0, board, _, _, _ => some (intScore (evaluate_board board), none)
  | fuel + 1, depth + 1, board, is_white, alpha, beta =>
    if is_white then
      white_loop_opt
        (fun move a => (minimax_fuel fuel depth (make_move board move) false a beta).map Prod.fst)
        beta (generate_moves board true) ⊥ none alpha
    else
      black_loop_opt
        (fun move b => (minimax_fuel fuel depth (make_move board move) true alpha b).map Prod.fst)
        alpha (generate_moves board false) ⊤ none beta

/-!
A small heap model for the mutation claim.  The Python `minimax` receives a
reference to a board object; every explored child runs `make_move` on a
`copy.deepcopy` of that object, never on the object itself.  The heap is a
list of board values, a reference is an index, `copy.deepcopy` allocates at
the end of the list, and `make_move(new_board, move)` overwrites the freshly
allocated cell.
-/

abbrev Store := List Board

/-- Dereference a board object (out-of-range reads return an empty board;
the search only ever dereferences live references). -/
def store_read (s : Store) (r : Nat) : Board := s[r]?.getD (fun _ _ => '.')

/-- Variant of `white_loop` threading the heap through the child searches. -/
def white_loop_st (f : Move → Score → Store → Score × Store) (beta : Score) :
    List Move → Score → Option Move → Score → Store → (Score × Option Move) × Store
  | [], max_eval, best_move, _, s => ((max_eval, best_move), s)
  | move :: rest, max_eval, best_move, alpha, s =>
    let es := f move alpha s
    let max_eval' := if max_eval < es.1 then es.1 else max_eval
    let best_move' := if max_eval < es.1 then some move else best_move
    let alpha' := max alpha es.1
    if beta ≤ alpha' then ((max_eval', best_move'), es.2)
    else white_loop_st f beta rest max_eval' best_move' alpha' es.2

/-- Variant of `black_loop` threading the heap through the child searches. -/
def black_loop_st (f : Move → Score → Store → Score × Store) (alpha : Score) :
    List Move → Score → Option Move → Score → Store → (Score × Option Move) × Store
  | [], min_eval, best_move, _, s => ((min_eval, best_move), s)
  | move :: rest, min_eval, best_move, beta, s =>
    let es := f move beta s
    let min_eval' := if es.1 < min_eval then es.1 else min_eval
    let best_move' := if es.1 < min_eval then some move else best_move
    let beta' := min beta es.1
    if beta' ≤ alpha then ((min_eval', best_move'), es.2)
    else black_loop_st f alpha rest min_eval' best_move' beta' es.2

/-- Variant of `minimax` over the heap model: the board argument is a reference `r` into
the store.  Each loop iteration performs, exactly as the source does,
`new_board = copy.deepcopy(board)` (allocate a copy of the board currently at
`r`), `make_move(new_board, move)` (overwrite the fresh cell), and recurses on
the fresh reference. -/
def minimax_st : Nat → Nat → Bool → Score → Score → Store → (Score × Option Move) × Store
  | 0, r, _, _, _, s => ((intScore (evaluate_board (store_read s r)), none), s)
  | depth + 1, r, is_white, alpha, beta, s =>
    if is_white then
      white_loop_st
        (fun move a s0 =>
          let s1 := s0 ++ [store_read s0 r]
          let s2 := s1.set s0.length (make_move (store_read s1 s0.length) move)
          let res := minimax_st depth s0.length false a beta s2
          (res.1.1, res.2))
        beta (generate_moves (store_read s r) true) ⊥ none alpha s
    else
      black_loop_st
        (fun move b s0 =>
          let s1 := s0 ++ [store_read s0 r]
          let s2 := s1.set s0.length (make_move (store_read s1 s0.length) move)
          let res := minimax_st depth s0.length true alpha b s2
          (res.1.1, res.2))
        alpha (generate_moves (store_read s r) false) ⊤ none beta s

/-- One heap evolves from another without touching existing objects:
no object already allocated changes, and allocation only extends the heap. -/
def heap_extends (s s' : Store) : Prop :=
  s.length ≤ s'.length ∧ ∀ i, i < s.length → s'[i]? = s[i]?

/-- The Knuth–Moore bound relation between the score `g` returned by an
alpha-beta call on the window `(alpha, beta)` and the un-pruned minimax value
`v` of the same node: a fail-low result bounds `v` from above, a fail-high
result bounds it from below, and a result strictly inside the window is
exact. -/
def km_bound (g v alpha beta : Score) : Prop :=
  (g ≤ alpha → v ≤ g) ∧ (beta ≤ g → g ≤ v) ∧ (alpha < g → g < beta → v = g)

/-- A board with a white pawn at (6,0) facing a black pawn at (5,0), with
(5,1) empty: the two situations the pawn-move claim distinguishes. -/
def pawnFaceBoard : Board :=
  fun x y =>
    if (x.val, y.val) = (6, 0) then 'P'
    else if (x.val, y.val) = (5, 0) then 'p'
    else '.'

/-- A board whose only piece is a white pawn. -/
def whitePawnOnlyBoard : Board :=
  fun x y => if (x.val, y.val) = (6, 0) then 'P' else '.'

/-- A board whose only piece is a black pawn. -/
def blackPawnOnlyBoard : Board :=
  fun x y => if (x.val, y.val) = (1, 0) then 'p' else '.'

/-- The board with no pieces at all. -/
def emptyBoard : Board := fun _ _ => '.'

/-- A board with a white pawn at (1,0) and a black pawn at (5,5): every White
root move strands the white pawn on rank 0 where it has no further moves, so
at depth 3 every root move of White comes back with the score negative
infinity, equal to the loop seed. -/
def strandedPawnBoard : Board :=
  fun x y =>
    if (x.val, y.val) = (1, 0) then 'P'
    else if (x.val, y.val) = (5, 5) then 'p'
    else '.'

/-!
Supporting lemmas: monotonicity of the loop accumulators, the tie-keeping
behaviour of the strict update, agreement of the fuelled loops with the
plain ones, the heap frame property, foldl decompositions, and the
Knuth–Moore bounds for the alpha-beta loops.
-/

lemma white_loop_fst_ge (f : Move → Score → Score) (beta : Score) :
    ∀ (ms : List Move) (me : Score) (bm : Option Move) (alpha : Score),
      me ≤ (white_loop f beta ms me bm alpha).1 := by
  intro ms
  induction ms with
  | nil => intro me bm alpha; exact le_refl _
  | cons m rest ih =>
    intro me bm alpha
    simp only [white_loop]
    by_cases hlt : me < f m alpha
    · simp only [if_pos hlt]
      split
      · exact le_of_lt hlt
      · exact le_trans (le_of_lt hlt) (ih _ _ _)
    · simp only [if_neg hlt]
      split
      · exact le_refl _
      · exact ih _ _ _

lemma black_loop_fst_le (f : Move → Score → Score) (alpha : Score) :
    ∀ (ms : List Move) (mi : Score) (bm : Option Move) (beta : Score),
      (black_loop f alpha ms mi bm beta).1 ≤ mi := by
  intro ms
  induction ms with
  | nil => intro mi bm beta; exact le_refl _
  | cons m rest ih =>
    intro mi bm beta
    simp only [black_loop]
    by_cases hlt : f m beta < mi
    · simp only [if_pos hlt]
      split
      · exact le_of_lt hlt
      · exact le_trans (ih _ _ _) (le_of_lt hlt)
    · simp only [if_neg hlt]
      split
      · exact le_refl _
      · exact ih _ _ _

lemma white_loop_keeps_best (f : Move → Score → Score) (beta : Score) :
    ∀ (ms : List Move) (me : Score) (bm : Option Move) (alpha : Score),
      (white_loop f beta ms me bm alpha).1 = me →
      (white_loop f beta ms me bm alpha).2 = bm := by
  intro ms
  induction ms with
  | nil => intro me bm alpha _; rfl
  | cons m rest ih =>
    intro me bm alpha h
    simp only [white_loop] at h ⊢
    by_cases hlt : me < f m alpha
    · simp only [if_pos hlt] at h ⊢
      split at h
      · exact absurd h (ne_of_gt hlt)
      · exact absurd h (ne_of_gt (lt_of_lt_of_le hlt (white_loop_fst_ge f beta rest _ _ _)))
    · simp only [if_neg hlt] at h ⊢
      split at h <;> rename_i hb
      · simp only [if_pos hb]
      · simp only [if_neg hb]
        exact ih _ _ _ h

lemma black_loop_keeps_best (f : Move → Score → Score) (alpha : Score) :
    ∀ (ms : List Move) (mi : Score) (bm : Option Move) (beta : Score),
      (black_loop f alpha ms mi bm beta).1 = mi →
      (black_loop f alpha ms mi bm beta).2 = bm := by
  intro ms
  induction ms with
  | nil => intro mi bm beta _; rfl
  | cons m rest ih =>
    intro mi bm beta h
    simp only [black_loop] at h ⊢
    by_cases hlt : f m beta < mi
    · simp only [if_pos hlt] at h ⊢
      split at h
      · exact absurd h (ne_of_lt hlt)
      · exact absurd h (ne_of_lt (lt_of_le_of_lt (black_loop_fst_le f alpha rest _ _ _) hlt))
    · simp only [if_neg hlt] at h ⊢
      split at h <;> rename_i hb
      · simp only [if_pos hb]
      · simp only [if_neg hb]
        exact ih _ _ _ h

lemma white_loop_opt_eq (f : Move → Score → Score) (fo : Move → Score → Option Score)
    (beta : Score) (hf : ∀ m a, fo m a = some (f m a)) :
    ∀ (ms : List Move) (me : Score) (bm : Option Move) (alpha : Score),
      white_loop_opt fo beta ms me bm alpha = some (white_loop f beta ms me bm alpha) := by
  intro ms
  induction ms with
  | nil => intro me bm alpha; rfl
  | cons m rest ih =>
    intro me bm alpha
    simp only [white_loop_opt, white_loop, hf]
    split
    · rfl
    · exact ih _ _ _

lemma black_loop_opt_eq (f : Move → Score → Score) (fo : Move → Score → Option Score)
    (alpha : Score) (hf : ∀ m b, fo m b = some (f m b)) :
    ∀ (ms : List Move) (mi : Score) (bm : Option Move) (beta : Score),
      black_loop_opt fo alpha ms mi bm beta = some (black_loop f alpha ms mi bm beta) := by
  intro ms
  induction ms with
  | nil => intro mi bm beta; rfl
  | cons m rest ih =>
    intro mi bm beta
    simp only [black_loop_opt, black_loop, hf]
    split
    · rfl
    · exact ih _ _ _

lemma heap_extends_trans {s1 s2 s3 : Store}
    (h12 : heap_extends s1 s2) (h23 : heap_extends s2 s3) : heap_extends s1 s3 := by
  refine ⟨le_trans h12.1 h23.1, fun i hi => ?_⟩
  rw [h23.2 i (lt_of_lt_of_le hi h12.1), h12.2 i hi]

lemma white_loop_st_frame (f : Move → Score → Store → Score × Store) (beta : Score)
    (hf : ∀ m a s0, heap_extends s0 (f m a s0).2) :
    ∀ (ms : List Move) (me : Score) (bm : Option Move) (alpha : Score) (s : Store),
      heap_extends s (white_loop_st f beta ms me bm alpha s).2 := by
  intro ms
  induction ms with
  | nil => intro me bm alpha s; exact ⟨le_refl _, fun i _ => rfl⟩
  | cons m rest ih =>
    intro me bm alpha s
    simp only [white_loop_st]
    split
    · exact hf m alpha s
    · exact heap_extends_trans (hf m alpha s) (ih _ _ _ _)

lemma black_loop_st_frame (f : Move → Score → Store → Score × Store) (alpha : Score)
    (hf : ∀ m b s0, heap_extends s0 (f m b s0).2) :
    ∀ (ms : List Move) (mi : Score) (bm : Option Move) (beta : Score) (s : Store),
      heap_extends s (black_loop_st f alpha ms mi bm beta s).2 := by
  intro ms
  induction ms with
  | nil => intro mi bm beta s; exact ⟨le_refl _, fun i _ => rfl⟩
  | cons m rest ih =>
    intro mi bm beta s
    simp only [black_loop_st]
    split
    · exact hf m beta s
    · exact heap_extends_trans (hf m beta s) (ih _ _ _ _)

lemma alloc_write_extends (s0 : Store) (b b' : Board) :
    heap_extends s0 ((s0 ++ [b]).set s0.length b') := by
  refine ⟨?_, fun i hi => ?_⟩
  · simp
  · rw [List.getElem?_set_ne (by omega)]
    rw [List.getElem?_append, if_pos hi]

lemma minimax_st_frame :
    ∀ (depth : Nat) (r : Nat) (is_white : Bool) (alpha beta : Score) (s : Store),
      heap_extends s (minimax_st depth r is_white alpha beta s).2 := by
  intro depth
  induction depth with
  | zero => intro r is_white alpha beta s; exact ⟨le_refl _, fun i _ => rfl⟩
  | succ d ih =>
    intro r is_white alpha beta s
    cases is_white with
    | true =>
      simp only [minimax_st, if_pos]
      refine white_loop_st_frame _ _ (fun m a s0 => ?_) _ _ _ _ _
      exact heap_extends_trans (alloc_write_extends s0 _ _) (ih _ false a beta _)
    | false =>
      simp only [minimax_st, if_pos]
      refine black_loop_st_frame _ _ (fun m b s0 => ?_) _ _ _ _ _
      exact heap_extends_trans (alloc_write_extends s0 _ _) (ih _ true alpha b _)

lemma foldl_max_init (v : Move → Score) :
    ∀ (l : List Move) (a : Score),
      l.foldl (fun acc m => max acc (v m)) a =
        max a (l.foldl (fun acc m => max acc (v m)) ⊥) := by
  intro l
  induction l with
  | nil => intro a; simp
  | cons m rest ih =>
    intro a
    simp only [List.foldl_cons]
    rw [ih (max a (v m)), ih (max ⊥ (v m))]
    rw [max_comm ⊥ (v m), max_eq_left bot_le, max_assoc]

lemma foldl_max_init_le (v : Move → Score) :
    ∀ (l : List Move) (a : Score), a ≤ l.foldl (fun acc m => max acc (v m)) a := by
  intro l
  induction l with
  | nil => intro a; exact le_refl _
  | cons m rest ih =>
    intro a
    exact le_trans (le_max_left a (v m)) (ih _)

lemma foldl_min_init (v : Move → Score) :
    ∀ (l : List Move) (a : Score),
      l.foldl (fun acc m => min acc (v m)) a =
        min a (l.foldl (fun acc m => min acc (v m)) ⊤) := by
  intro l
  induction l with
  | nil => intro a; simp
  | cons m rest ih =>
    intro a
    simp only [List.foldl_cons]
    rw [ih (min a (v m)), ih (min ⊤ (v m))]
    rw [min_comm ⊤ (v m), min_eq_left le_top, min_assoc]

lemma foldl_min_init_le (v : Move → Score) :
    ∀ (l : List Move) (a : Score), l.foldl (fun acc m => min acc (v m)) a ≤ a := by
  intro l
  induction l with
  | nil => intro a; exact le_refl _
  | cons m rest ih =>
    intro a
    exact le_trans (ih _) (min_le_left a (v m))

lemma white_loop_km (f : Move → Score → Score) (v : Move → Score) (beta : Score)
    (H : ∀ m a, a < beta → km_bound (f m a) (v m) a beta) :
    ∀ (ms : List Move) (me : Score) (bm : Option Move) (alpha : Score),
      alpha < beta → me ≤ alpha →
      km_bound (white_loop f beta ms me bm alpha).1
        (ms.foldl (fun acc m => max acc (v m)) me) alpha beta := by
  intro ms
  induction ms with
  | nil =>
    intro me bm alpha hab hme
    exact ⟨fun _ => le_refl _, fun _ => le_refl _, fun _ _ => rfl⟩
  | cons m rest ih =>
    intro me bm alpha hab hme
    obtain ⟨h1, h2, h3⟩ := H m alpha hab
    simp only [white_loop, List.foldl_cons]
    have hgmax : (if me < f m alpha then f m alpha else me) = max me (f m alpha) := by
      rcases lt_or_ge me (f m alpha) with h | h
      · rw [if_pos h, max_eq_right (le_of_lt h)]
      · rw [if_neg (not_lt.mpr h), max_eq_left h]
    by_cases hb : beta ≤ max alpha (f m alpha)
    · rw [if_pos hb, hgmax]
      have hbe : beta ≤ f m alpha := by
        rcases le_total (f m alpha) alpha with h | h
        · exact absurd (le_trans hb (max_le (le_refl alpha) h)) (not_le.mpr hab)
        · rwa [max_eq_right h] at hb
      have hvm : f m alpha ≤ v m := h2 hbe
      have hinit : max me (v m) ≤ rest.foldl (fun acc m => max acc (v m)) (max me (v m)) :=
        foldl_max_init_le v rest _
      refine ⟨fun hga => ?_, fun _ => ?_, fun _ hgb => ?_⟩
      · exact absurd
          (lt_of_lt_of_le hab (le_trans hbe (le_trans (le_max_right me _) hga)))
          (lt_irrefl alpha)
      · exact max_le (le_trans (le_max_left me (v m)) hinit)
          (le_trans (le_trans hvm (le_max_right me _)) hinit)
      · exact absurd (lt_of_le_of_lt (le_trans hbe (le_max_right me _)) hgb) (lt_irrefl beta)
    · rw [if_neg hb, hgmax]
      have hab' : max alpha (f m alpha) < beta := not_le.mp hb
      have heb : f m alpha < beta := lt_of_le_of_lt (le_max_right _ _) hab'
      have hml : max me (f m alpha) ≤ max alpha (f m alpha) := max_le_max hme (le_refl _)
      obtain ⟨i1, i2, i3⟩ :=
        ih (max me (f m alpha)) (if me < f m alpha then some m else bm)
          (max alpha (f m alpha)) hab' hml
      have hge : max me (f m alpha) ≤
          (white_loop f beta rest (max me (f m alpha))
            (if me < f m alpha then some m else bm) (max alpha (f m alpha))).1 :=
        white_loop_fst_ge f beta rest _ _ _
      rw [foldl_max_init v rest (max me (f m alpha))] at i1 i2 i3
      rw [foldl_max_init v rest (max me (v m))]
      refine ⟨fun hga => ?_, fun hbg => ?_, fun hag hgb => ?_⟩
      · have hga' := le_trans hga (le_max_left alpha (f m alpha))
        have hV' := i1 hga'
        have heg := le_trans (le_max_right me (f m alpha)) hge
        have hvme := h1 (le_trans heg hga)
        exact max_le (max_le (le_trans (le_max_left me (f m alpha)) hge)
            (le_trans hvme heg))
          (le_trans (le_max_right _ _) hV')
      · have hgV' := i2 hbg
        have hlt : max me (f m alpha) < beta := max_lt (lt_of_le_of_lt hme hab) heb
        have hgM := (le_max_iff.mp hgV').resolve_left
          (fun h => absurd (le_trans hbg h) (not_le.mpr hlt))
        exact le_trans hgM (le_max_right _ _)
      · rcases lt_or_ge (max alpha (f m alpha))
            ((white_loop f beta rest (max me (f m alpha))
              (if me < f m alpha then some m else bm) (max alpha (f m alpha))).1)
          with hga' | hga'
        · have hV' := i3 hga' hgb
          have hMg := hV' ▸ le_max_right (max me (f m alpha))
            (rest.foldl (fun acc m => max acc (v m)) ⊥)
          have hmeg := hV' ▸ le_trans (le_max_left me (f m alpha))
            (le_max_left (max me (f m alpha)) (rest.foldl (fun acc m => max acc (v m)) ⊥))
          have heg2 := hV' ▸ le_trans (le_max_right me (f m alpha))
            (le_max_left (max me (f m alpha)) (rest.foldl (fun acc m => max acc (v m)) ⊥))
          have hvmg : v m ≤ (white_loop f beta rest (max me (f m alpha))
              (if me < f m alpha then some m else bm) (max alpha (f m alpha))).1 := by
            rcases le_or_lt (f m alpha) alpha with he | he
            · exact le_trans (h1 he) heg2
            · rw [h3 he heb]; exact heg2
          refine le_antisymm (max_le (max_le hmeg hvmg) hMg) ?_
          rcases max_cases (max me (f m alpha))
              (rest.foldl (fun acc m => max acc (v m)) ⊥) with ⟨hc, _⟩ | ⟨hc, _⟩
          · have hgme := hV'.symm.trans hc
            rcases max_cases me (f m alpha) with ⟨hc2, _⟩ | ⟨hc2, _⟩
            · exact absurd (lt_of_lt_of_le hag (le_trans (le_of_eq (hgme.trans hc2)) hme))
                (lt_irrefl alpha)
            · have hge2 := hgme.trans hc2
              have hv : v m = f m alpha := h3 (hge2 ▸ hag) heb
              rw [hge2, ← hv]
              exact le_trans (le_max_right me (v m)) (le_max_left _ _)
          · have hgM2 := hV'.symm.trans hc
            rw [hgM2]
            exact le_max_right _ _
        · have hnle : ¬ f m alpha ≤ alpha := fun he =>
            absurd (lt_of_lt_of_le hag (le_trans hga' (le_of_eq (max_eq_left he))))
              (lt_irrefl alpha)
          have hae := not_le.mp hnle
          have hgle := le_of_le_of_eq hga' (max_eq_right (le_of_lt hae))
          have heg := le_trans (le_max_right me (f m alpha)) hge
          have hge2 := le_antisymm hgle heg
          have hv : v m = f m alpha := h3 hae heb
          have hVle := i1 hga'
          have hmeg := le_trans (le_max_left me (f m alpha)) (le_trans (le_max_left _ _) hVle)
          have hMg := le_trans (le_max_right (max me (f m alpha)) _) hVle
          refine le_antisymm (max_le (max_le hmeg (le_of_eq (hv.trans hge2.symm))) hMg) ?_
          rw [hge2, ← hv]
          exact le_trans (le_max_right me (v m)) (le_max_left _ _)

lemma black_loop_km (f : Move → Score → Score) (v : Move → Score) (alpha : Score)
    (H : ∀ m b, alpha < b → km_bound (f m b) (v m) alpha b) :
    ∀ (ms : List Move) (mi : Score) (bm : Option Move) (beta : Score),
      alpha < beta → beta ≤ mi →
      km_bound (black_loop f alpha ms mi bm beta).1
        (ms.foldl (fun acc m => min acc (v m)) mi) alpha beta := by
  intro ms
  induction ms with
  | nil =>
    intro mi bm beta hab hbm
    exact ⟨fun _ => le_refl _, fun _ => le_refl _, fun _ _ => rfl⟩
  | cons m rest ih =>
    intro mi bm beta hab hbm
    obtain ⟨h1, h2, h3⟩ := H m beta hab
    simp only [black_loop, List.foldl_cons]
    have hgmin : (if f m beta < mi then f m beta else mi) = min mi (f m beta) := by
      rcases lt_or_ge (f m beta) mi with h | h
      · rw [if_pos h, min_eq_right (le_of_lt h)]
      · rw [if_neg (not_lt.mpr h), min_eq_left h]
    by_cases hb : min beta (f m beta) ≤ alpha
    · rw [if_pos hb, hgmin]
      have hbe : f m beta ≤ alpha := by
        rcases le_total beta (f m beta) with h | h
        · exact absurd (lt_of_lt_of_le hab (le_trans (le_of_eq (min_eq_left h).symm) hb))
            (lt_irrefl alpha)
        · rwa [min_eq_right h] at hb
      have hvm : v m ≤ f m beta := h1 hbe
      have hinit : rest.foldl (fun acc m => min acc (v m)) (min mi (v m)) ≤ min mi (v m) :=
        foldl_min_init_le v rest _
      refine ⟨fun _ => ?_, fun hbg => ?_, fun hag _ => ?_⟩
      · exact le_min (le_trans hinit (min_le_left mi (v m)))
          (le_trans (le_trans hinit (min_le_right mi _)) hvm)
      · exact absurd
          (lt_of_lt_of_le hab (le_trans hbg (le_trans (min_le_right mi _) hbe)))
          (lt_irrefl alpha)
      · exact absurd (lt_of_lt_of_le hag (le_trans (min_le_right mi _) hbe)) (lt_irrefl alpha)
    · rw [if_neg hb, hgmin]
      have hab' : alpha < min beta (f m beta) := not_le.mp hb
      have heb : alpha < f m beta := lt_of_lt_of_le hab' (min_le_right _ _)
      have hml : min beta (f m beta) ≤ min mi (f m beta) := min_le_min hbm (le_refl _)
      obtain ⟨i1, i2, i3⟩ :=
        ih (min mi (f m beta)) (if f m beta < mi then some m else bm)
          (min beta (f m beta)) hab' hml
      have hge : (black_loop f alpha rest (min mi (f m beta))
            (if f m beta < mi then some m else bm) (min beta (f m beta))).1 ≤
          min mi (f m beta) :=
        black_loop_fst_le f alpha rest _ _ _
      rw [foldl_min_init v rest (min mi (f m beta))] at i1 i2 i3
      rw [foldl_min_init v rest (min mi (v m))]
      refine ⟨fun hga => ?_, fun hbg => ?_, fun hag hgb => ?_⟩
      · have hV' := i1 hga
        have hlt : alpha < min mi (f m beta) := lt_min (lt_of_lt_of_le hab hbm) heb
        have hgM := (min_le_iff.mp hV').resolve_left
          (fun h => absurd (le_trans h hga) (not_le.mpr hlt))
        exact le_trans (min_le_right _ _) hgM
      · have hgV' := i2 (le_trans (min_le_left beta (f m beta)) hbg)
        have heg := le_trans hge (min_le_right mi (f m beta))
        have hvme := h2 (le_trans hbg heg)
        exact le_min (le_min (le_trans hge (min_le_left mi (f m beta)))
            (le_trans heg hvme))
          (le_trans hgV' (min_le_right _ _))
      · rcases lt_or_ge ((black_loop f alpha rest (min mi (f m beta))
              (if f m beta < mi then some m else bm) (min beta (f m beta))).1)
            (min beta (f m beta))
          with hga' | hga'
        · have hV' := i3 hag hga'
          have hMg := hV' ▸ min_le_right (min mi (f m beta))
            (rest.foldl (fun acc m => min acc (v m)) ⊤)
          have hmig := hV' ▸ le_trans
            (min_le_left (min mi (f m beta)) (rest.foldl (fun acc m => min acc (v m)) ⊤))
            (min_le_left mi (f m beta))
          have heg2 := hV' ▸ le_trans
            (min_le_left (min mi (f m beta)) (rest.foldl (fun acc m => min acc (v m)) ⊤))
            (min_le_right mi (f m beta))
          have hvmg : (black_loop f alpha rest (min mi (f m beta))
              (if f m beta < mi then some m else bm) (min beta (f m beta))).1 ≤ v m := by
            rcases le_or_lt beta (f m beta) with he | he
            · exact le_trans heg2 (h2 he)
            · rw [h3 heb he]; exact heg2
          refine le_antisymm ?_ (le_min (le_min hmig hvmg) hMg)
          rcases min_cases (min mi (f m beta))
              (rest.foldl (fun acc m => min acc (v m)) ⊤) with ⟨hc, _⟩ | ⟨hc, _⟩
          · have hgmi := hV'.symm.trans hc
            rcases min_cases mi (f m beta) with ⟨hc2, _⟩ | ⟨hc2, _⟩
            · exact absurd (lt_of_le_of_lt (le_trans hbm (le_of_eq (hgmi.trans hc2).symm)) hgb)
                (lt_irrefl beta)
            · have hge2 := hgmi.trans hc2
              have hv : v m = f m beta := h3 heb (hge2 ▸ hgb)
              rw [hge2, ← hv]
              exact le_trans (min_le_left _ _) (min_le_right mi (v m))
          · have hgM2 := hV'.symm.trans hc
            rw [hgM2]
            exact min_le_right _ _
        · have hnle : ¬ beta ≤ f m beta := fun he =>
            absurd (lt_of_le_of_lt (le_trans (le_of_eq (min_eq_left he).symm) hga') hgb)
              (lt_irrefl beta)
          have hae := not_le.mp hnle
          have hgle := le_of_eq_of_le (min_eq_right (le_of_lt hae)).symm hga'
          have heg := le_trans hge (min_le_right mi (f m beta))
          have hge2 := le_antisymm heg hgle
          have hv : v m = f m beta := h3 heb hae
          have hVge := i2 hga'
          have hmig := le_trans hVge (le_trans (min_le_left _ _) (min_le_left mi (f m beta)))
          have hMg := le_trans hVge (min_le_right (min mi (f m beta)) _)
          refine le_antisymm ?_ (le_min (le_min hmig (le_of_eq (hge2.trans hv.symm))) hMg)
          rw [hge2, ← hv]
          exact le_trans (min_le_left _ _) (min_le_right mi (v m))

lemma minimax_km :
    ∀ (depth : Nat) (board : Board) (is_white : Bool) (alpha beta : Score),
      alpha < beta →
      km_bound (minimax depth board is_white alpha beta).1
        (full_minimax depth board is_white) alpha beta := by
  intro depth
  induction depth with
  | zero =>
    intro board is_white alpha beta hab
    exact ⟨fun _ => le_refl _, fun _ => le_refl _, fun _ _ => rfl⟩
  | succ d ih =>
    intro board is_white alpha beta hab
    cases is_white with
    | true =>
      simp only [minimax, full_minimax, if_pos]
      exact white_loop_km _ _ beta (fun m a ha => ih (make_move board m) false a beta ha)
        (generate_moves board true) ⊥ none alpha hab bot_le
    | false =>
      simp only [minimax, full_minimax, if_pos]
      exact black_loop_km _ _ alpha (fun m b hb => ih (make_move board m) true alpha b hb)
        (generate_moves board false) ⊤ none beta hab le_top

/-- Claim C1: for every board position and every depth at most 3, the score
returned at the root by the alpha-beta search `minimax` called with the full
window (negative infinity, positive infinity) equals the score of an
un-pruned full minimax over the same game tree (same move generator, same
evaluator): pruning never changes the root value. -/
theorem alphabeta_root_eq_full_minimax (board : Board) (depth : Nat) (is_white : Bool)
    (h : depth ≤ 3) :
    (minimax depth board is_white ⊥ ⊤).1 = full_minimax depth board is_white := by
  obtain ⟨k1, k2, k3⟩ := minimax_km depth board is_white ⊥ ⊤ bot_lt_top
  rcases le_or_lt (minimax depth board is_white ⊥ ⊤).1 ⊥ with hbot | hbot
  · exact le_antisymm (le_trans hbot bot_le) (k1 hbot)
  · rcases lt_or_ge (minimax depth board is_white ⊥ ⊤).1 ⊤ with htop | htop
    · exact (k3 hbot htop).symm
    · exact le_antisymm (k2 htop) (le_trans le_top htop)

/-- Witness for C1: the equivalence instantiated at the standard starting
position and the depth 3 the driver uses. -/
theorem alphabeta_root_eq_full_minimax_witness :
    (3 : Nat) ≤ 3 ∧
      (minimax 3 initialize_board true ⊥ ⊤).1 = full_minimax 3 initialize_board true :=
  ⟨by decide, alphabeta_root_eq_full_minimax initialize_board 3 true (by decide)⟩

/-- Claim C2 (failing input): on a board with a white pawn at (6,0), a black
pawn straight ahead at (5,0) and the diagonal square (5,1) empty, the move
generator produces the one-step-forward move onto the enemy-occupied square
and the diagonal move onto the empty square, contradicting the claim that
the forward step requires an empty destination and the diagonal steps
require an enemy-occupied destination. -/
theorem pawn_moves_failing_input :
    get_piece_moves pawnFaceBoard 6 0 'P' =
      [((6, 0), (5, 0)), ((6, 0), (5, 1))] ∧
    pawnFaceBoard 6 0 = 'P' ∧ pawnFaceBoard 5 0 = 'p' ∧ pawnFaceBoard 5 1 = '.' := by
  decide

/-- Claim C3 (counterexample): on the standard starting position the move
generator does not produce 20 moves for White. -/
theorem initial_move_count_counterexample :
    (generate_moves initialize_board true).length ≠ 20 := by decide

/-- Claim C3 (amended): on the standard starting position the move generator
yields exactly 26 moves for White (8 pawn forward steps, 14 pawn diagonal
steps onto empty squares, 4 knight moves) and symmetrically exactly 26 moves
for Black. -/
theorem initial_move_count_is_26 :
    (generate_moves initialize_board true).length = 26 ∧
    (generate_moves initialize_board false).length = 26 :=
  ⟨rfl, rfl⟩

/-- Claim C4 (counterexample): on the empty board, where the side to move has
zero generated moves, the search at depth 1 returns the sentinel score
negative infinity and no move, not the static evaluation 0 of the board. -/
theorem no_moves_eval_counterexample :
    minimax 1 emptyBoard true ⊥ ⊤ = (⊥, none) ∧
    intScore (evaluate_board emptyBoard) = intScore 0 ∧
    (⊥ : Score) ≠ intScore 0 := by decide

/-- Claim C4 (amended): for every board whose side to move has zero generated
moves and every depth greater than 0, the search returns best_move = none
together with the untouched initial accumulator, the sentinel score negative
infinity for the maximizing side and positive infinity for the minimizing
side, not the static evaluation of the board. -/
theorem no_moves_returns_sentinel (board : Board) (depth : Nat) (is_white : Bool)
    (alpha beta : Score) (h : generate_moves board is_white = []) :
    minimax (depth + 1) board is_white alpha beta =
      ((if is_white then (⊥ : Score) else ⊤), none) := by
  cases is_white <;> simp [minimax, h, white_loop, black_loop]

/-- Witness for the amended C4: the empty board has no generated moves and
the depth-1 search on it returns the negative-infinity sentinel. -/
theorem no_moves_returns_sentinel_witness :
    generate_moves emptyBoard true = [] ∧
      minimax (0 + 1) emptyBoard true ⊥ ⊤ = ((if true then (⊥ : Score) else ⊤), none) :=
  ⟨by decide, no_moves_returns_sentinel emptyBoard 0 true ⊥ ⊤ (by decide)⟩

/-- Claim C5 (failing input): the evaluator maps a board holding a single
white pawn to -1 and a board holding a single black pawn to +1, the opposite
of the claimed sign convention sign(White) = +1, sign(Black) = -1. -/
theorem evaluate_board_sign_failing_input :
    evaluate_board whitePawnOnlyBoard = -1 ∧ evaluate_board blackPawnOnlyBoard = 1 := by
  decide

/-- Claim C6: for every board position, either side and any window, the
search called with depth 0 returns exactly the static evaluation of the
board paired with no move. -/
theorem depth_zero_returns_eval :
    ∀ (board : Board) (is_white : Bool) (alpha beta : Score),
      minimax 0 board is_white alpha beta = (intScore (evaluate_board board), none) :=
  fun _ _ _ _ => rfl

/-- Claim C7 (counterexample): applying the move from the empty square (4,4)
to the black pawn on (1,0) of the starting position is not rejected: the
board is silently mutated, the destination square is overwritten with the
empty marker. -/
theorem make_move_silent_mutation_counterexample :
    make_move initialize_board ((4, 4), (1, 0)) 1 0 = '.' ∧
    initialize_board 4 4 = '.' ∧ initialize_board 1 0 = 'p' ∧
    make_move initialize_board ((4, 4), (1, 0)) ≠ initialize_board := by decide

/-- Claim C7 (amended): `make_move` validates nothing and never fails: for
every board and every move, also one whose from-square is empty or holds a
piece of the non-moving side, it unconditionally empties the from-square and
copies the previous content of the from-square onto the to-square. -/
theorem make_move_unchecked (board : Board) (m : Move) :
    make_move board m m.1.1 m.1.2 = '.' ∧
    (m.1 ≠ m.2 → make_move board m m.2.1 m.2.2 = board m.1.1 m.1.2) := by
  constructor
  · show (if (m.1.1, m.1.2) = m.1 then '.' else _) = '.'
    rw [if_pos rfl]
  · intro hne
    show (if (m.2.1, m.2.2) = m.1 then '.'
      else if (m.2.1, m.2.2) = m.2 then board m.1.1 m.1.2 else board m.2.1 m.2.2) = _
    rw [if_neg (fun h => hne h.symm), if_pos rfl]

/-- Witness for the amended C7: moving from the empty square (4,4) onto the
black pawn at (1,0) silently clears (4,4) and writes the empty marker over
the pawn. -/
theorem make_move_unchecked_witness :
    ((4 : Fin 8), (4 : Fin 8)) ≠ ((1 : Fin 8), (0 : Fin 8)) ∧
    make_move initialize_board ((4, 4), (1, 0)) 4 4 = '.' ∧
    make_move initialize_board ((4, 4), (1, 0)) 1 0 = initialize_board 4 4 :=
  ⟨by decide, (make_move_unchecked initialize_board ((4, 4), (1, 0))).1,
    (make_move_unchecked initialize_board ((4, 4), (1, 0))).2 (by decide)⟩

/-- Claim C8 (counterexample): on the board with a white pawn at (1,0) and a
black pawn at (5,5), White has exactly two root moves and both yield the same
returned score at depth 3 (both come back with negative infinity), yet the
search returns best_move = none rather than the first of the two equal-scoring
moves: the strict update never fires when every score equals the seed. -/
theorem tie_break_counterexample :
    generate_moves strandedPawnBoard true = [((1, 0), (0, 0)), ((1, 0), (0, 1))] ∧
    (minimax 2 (make_move strandedPawnBoard ((1, 0), (0, 0))) false ⊥ ⊤).1 =
      (minimax 2 (make_move strandedPawnBoard ((1, 0), (0, 1))) false ⊥ ⊤).1 ∧
    (minimax 3 strandedPawnBoard true ⊥ ⊤).2 = none := by decide

/-- Claim C8 (amended): at a search node the best move is updated only on a
strictly better score, `>` for the maximizing side and `<` for the minimizing
side.  Consequently, once the first move of the node has set the incumbent
score strictly above the seed (negative infinity for the maximizing side,
dually below positive infinity for the minimizing side), any continuation of
the loop whose final score equals the incumbent score returns that first move:
equal-scoring later moves never replace it, the deterministic leftmost
tie-break of the generation order.  When instead every returned score equals
the seed, the strict update never fires and the node returns
best_move = none, not the first equal-scoring move. -/
theorem strict_update_tie_break (f g : Move → Score → Score) (alpha beta : Score)
    (m : Move) (rest ms : List Move) :
    (¬ beta ≤ max alpha (f m alpha) →
      (white_loop f beta rest (f m alpha) (some m) (max alpha (f m alpha))).1 = f m alpha →
      ⊥ < f m alpha →
      (white_loop f beta (m :: rest) ⊥ none alpha).2 = some m) ∧
    (¬ min beta (g m beta) ≤ alpha →
      (black_loop g alpha rest (g m beta) (some m) (min beta (g m beta))).1 = g m beta →
      g m beta < ⊤ →
      (black_loop g alpha (m :: rest) ⊤ none beta).2 = some m) ∧
    ((white_loop f beta ms ⊥ none alpha).1 = ⊥ →
      (white_loop f beta ms ⊥ none alpha).2 = none) ∧
    ((black_loop g alpha ms ⊤ none beta).1 = ⊤ →
      (black_loop g alpha ms ⊤ none beta).2 = none) := by
  refine ⟨?_, ?_, ?_, ?_⟩
  · intro hnb hrest hbot
    simp only [white_loop, if_pos hbot, if_neg hnb]
    exact white_loop_keeps_best f beta rest _ _ _ hrest
  · intro hnb hrest htop
    simp only [black_loop, if_pos htop, if_neg hnb]
    exact black_loop_keeps_best g alpha rest _ _ _ hrest
  · exact white_loop_keeps_best f beta ms ⊥ none alpha
  · exact black_loop_keeps_best g alpha ms ⊤ none beta

/-- Witness for the amended C8: with two moves both scoring 0 under the full
window each loop returns the first of the two, and with two moves both
scoring the seed each loop returns no move. -/
theorem strict_update_tie_break_witness :
    (white_loop (fun _ _ => intScore 0) ⊤
        [(((0, 0), (0, 0)) : Move), (((1, 1), (1, 1)) : Move)] ⊥ none ⊥).2 =
      some (((0, 0), (0, 0)) : Move) ∧
    (black_loop (fun _ _ => intScore 0) ⊥
        [(((0, 0), (0, 0)) : Move), (((1, 1), (1, 1)) : Move)] ⊤ none ⊤).2 =
      some (((0, 0), (0, 0)) : Move) ∧
    (white_loop (fun _ _ => (⊥ : Score)) ⊤
        [(((0, 0), (0, 0)) : Move), (((1, 1), (1, 1)) : Move)] ⊥ none ⊥).2 = none ∧
    (black_loop (fun _ _ => (⊤ : Score)) ⊥
        [(((0, 0), (0, 0)) : Move), (((1, 1), (1, 1)) : Move)] ⊤ none ⊤).2 = none := by
  refine ⟨?_, ?_, ?_, ?_⟩
  · exact (strict_update_tie_break (fun _ _ => intScore 0) (fun _ _ => intScore 0) ⊥ ⊤
      (((0, 0), (0, 0)) : Move) [(((1, 1), (1, 1)) : Move)] []).1
      (by decide) (by decide) (by decide)
  · exact (strict_update_tie_break (fun _ _ => intScore 0) (fun _ _ => intScore 0) ⊥ ⊤
      (((0, 0), (0, 0)) : Move) [(((1, 1), (1, 1)) : Move)] []).2.1
      (by decide) (by decide) (by decide)
  · exact (strict_update_tie_break (fun _ _ => (⊥ : Score)) (fun _ _ => (⊤ : Score)) ⊥ ⊤
      (((0, 0), (0, 0)) : Move) []
      [(((0, 0), (0, 0)) : Move), (((1, 1), (1, 1)) : Move)]).2.2.1 (by decide)
  · exact (strict_update_tie_break (fun _ _ => (⊥ : Score)) (fun _ _ => (⊤ : Score)) ⊥ ⊤
      (((0, 0), (0, 0)) : Move) []
      [(((0, 0), (0, 0)) : Move), (((1, 1), (1, 1)) : Move)]).2.2.2 (by decide)

/-- Claim C9: the search terminates on every input because every recursive
call strictly decreases the depth: any fuel bound larger than the depth is
never exhausted, the fuelled search completes and agrees with `minimax`. -/
theorem minimax_fuel_bounded_by_depth (fuel : Nat) :
    ∀ (depth : Nat) (board : Board) (is_white : Bool) (alpha beta : Score),
      depth < fuel →
      minimax_fuel fuel depth board is_white alpha beta =
        some (minimax depth board is_white alpha beta) := by
  induction fuel with
  | zero => intro depth _ _ _ _ h; omega
  | succ fuel ih =>
    intro depth board is_white alpha beta h
    cases depth with
    | zero => rfl
    | succ d =>
      cases is_white with
      | true =>
        simp only [minimax_fuel, minimax, if_pos]
        exact white_loop_opt_eq _ _ _
          (fun m a => by rw [ih d _ false a beta (by omega)]; rfl) _ _ _ _
      | false =>
        simp only [minimax_fuel, minimax, if_pos]
        exact black_loop_opt_eq _ _ _
          (fun m b => by rw [ih d _ true alpha b (by omega)]; rfl) _ _ _ _

/-- Witness for C9: 4 units of fuel complete the depth-3 search the driver
runs on the starting position. -/
theorem minimax_fuel_bounded_by_depth_witness :
    (3 : Nat) < 4 ∧
      minimax_fuel 4 3 initialize_board true ⊥ ⊤ =
        some (minimax 3 initialize_board true ⊥ ⊤) :=
  ⟨by decide, minimax_fuel_bounded_by_depth 4 3 initialize_board true ⊥ ⊤ (by decide)⟩

/-- Claim C10: the search never mutates the board object it is given: in the
heap model, for every live reference, depth, side and window, the board the
caller passed in holds the same mapping after the search returns, because
every explored child move is applied to a freshly allocated deep copy. -/
theorem minimax_st_caller_board_unchanged (depth : Nat) (r : Nat) (is_white : Bool)
    (alpha beta : Score) (s : Store) (h : r < s.length) :
    ((minimax_st depth r is_white alpha beta s).2)[r]? = s[r]? :=
  (minimax_st_frame depth r is_white alpha beta s).2 r h

/-- Witness for C10: a depth-1 search from a one-board heap leaves the board
at reference 0 untouched. -/
theorem minimax_st_caller_board_unchanged_witness :
    0 < ([whitePawnOnlyBoard] : Store).length ∧
      ((minimax_st 1 0 true ⊥ ⊤ [whitePawnOnlyBoard]).2)[0]? =
        ([whitePawnOnlyBoard] : Store)[0]? :=
  ⟨by decide, minimax_st_caller_board_unchanged 1 0 true ⊥ ⊤ [whitePawnOnlyBoard] (by decide)⟩
